import Mathlib

/-!
Verification of the debounced document-validation scheduler of the AWS Toolkit
YAML language integration, together with the YAML server's configuration and
document-close handlers and the schema-map API of `activateYamlExtension`.

The scheduler (`TextDocumentValidator`, src/shared/languageServer/utils/validator.ts)
is embedded as a discrete-time state machine: the pending-validation map becomes a
list of entries (identity, latest snapshot, absolute fire deadline), timer firing
becomes an explicit `fireDue` transition, and the host event loop becomes a fold
over timestamped events.  The handlers in src/shared/extensions/yamlServer.ts and
src/shared/extensions/yaml.ts are embedded directly from their source.
-/

namespace AwsToolkit

/-- A text document snapshot: its URI (the source of the DocumentIdentity) and
its content at the time of the triggering event. -/
structure Snap where
  uri : String
  content : String
deriving DecidableEq, Repr

/-- One entry of the pending-validation map: the document identity it is keyed
under, the latest snapshot stored for it, and the absolute time at which the
armed timer is due to fire. -/
structure Entry where
  doc : String
  snap : Snap
  deadline : Nat
deriving DecidableEq, Repr

/-- Record of one fired validation: the identity, the snapshot handed to the
ValidationCallback, the scheduled fire time, and the callback outcome
(`none` = success, `some msg` = the error the callback raised, handed back to
the context that invoked the fired timer). -/
structure FireRecord where
  doc : String
  snap : Snap
  time : Nat
  result : Option String
deriving DecidableEq, Repr

/-- The scheduler state: the pending-validation map plus the log of every
ValidationCallback invocation that has happened so far. -/
structure VState where
  pending : List Entry
  log : List FireRecord
deriving DecidableEq, Repr

/-- A ValidationCallback: consumes a document snapshot, returns `none` on
success or `some msg` when it throws/rejects.  Treated as an arbitrary
parameter by the scheduler, exactly as the source treats its callback. -/
abbrev Callback := Snap → Option String

/-- Modelled from the spec: `cleanPendingValidation` of TextDocumentValidator
(src/shared/languageServer/utils/validator.ts, absent from src/).  If a pending
scheduled callback exists for this identity, cancel it and remove the entry;
no-op if none exists. -/
def cleanPendingValidation (d : String) (s : VState) : VState :=
  { s with pending := s.pending.filter (fun e => e.doc != d) }

/-- Modelled from the spec: `triggerValidation` of TextDocumentValidator
(src/shared/languageServer/utils/validator.ts, absent from src/).  Computes the
identity from the snapshot, cancels any pending entry for that identity, then
records a fresh entry holding the newest snapshot, due at `now + delayMillis`. -/
def triggerValidation (doc : Snap) (delayMillis : Nat) (now : Nat) (s : VState) : VState :=
  let s1 := cleanPendingValidation doc.uri s
  { s1 with pending := s1.pending ++ [⟨doc.uri, doc, now + delayMillis⟩] }

/-- Modelled from the spec: the timer-fire step of the event loop.  At time `t`
every armed timer whose deadline has passed fires: its entry is removed from the
pending map and the ValidationCallback runs on the stored snapshot, its outcome
(success or propagated error) recorded in the log. -/
def fireDue (cb : Callback) (t : Nat) (s : VState) : VState :=
  { pending := s.pending.filter (fun e => !decide (e.deadline < t)),
    log := s.log ++ (s.pending.filter (fun e => decide (e.deadline < t))).map
      (fun e => ⟨e.doc, e.snap, e.deadline, cb e.snap⟩) }

/-- An external event delivered to the scheduler: a change/open notification
(trigger) or a document-close cancellation (clean). -/
inductive Event where
  | trigger (doc : Snap) (delayMillis : Nat)
  | clean (d : String)
deriving DecidableEq, Repr

/-- One event-loop turn at an absolute time: first fire every timer already
past due, then process the event synchronously. -/
def step (cb : Callback) (s : VState) (te : Nat × Event) : VState :=
  match te with
  | (t, Event.trigger doc delay) => triggerValidation doc delay t (fireDue cb t s)
  | (t, Event.clean d) => cleanPendingValidation d (fireDue cb t s)

/-- Run a timestamped event list through the scheduler. -/
def run (cb : Callback) (events : List (Nat × Event)) (s : VState) : VState :=
  events.foldl (step cb) s

/-- Let every remaining armed timer fire (time advances past all deadlines). -/
def flush (cb : Callback) (s : VState) : VState :=
  { pending := [],
    log := s.log ++ s.pending.map (fun e => ⟨e.doc, e.snap, e.deadline, cb e.snap⟩) }

/-- Number of pending entries keyed under identity `d`. -/
def countFor (d : String) (s : VState) : Nat :=
  (s.pending.filter (fun e => e.doc == d)).length

/-- The pending-validation map holds at most one entry per identity. -/
def pendOK (s : VState) : Prop := ∀ d, countFor d s ≤ 1

/-- No pending entry is keyed under identity `d`. -/
def noPendingFor (d : String) (s : VState) : Prop := ∀ e ∈ s.pending, e.doc ≠ d

/-- No event in the list is a trigger for identity `d`. -/
def noTriggerFor (d : String) (events : List (Nat × Event)) : Prop :=
  ∀ te ∈ events, ∀ doc delay, te.2 = Event.trigger doc delay → doc.uri ≠ d

/-- The event stream of N same-identity triggers with a fixed delay. -/
def triggerEvents (d : String) (delay : Nat) (calls : List (Nat × String)) :
    List (Nat × Event) :=
  calls.map fun c => (c.1, Event.trigger ⟨d, c.2⟩ delay)

/-- A diagnostic published to the host sink (payload left opaque). -/
abbrev Diagnostic := String

/-- State of the YAML server around its validator: the scheduler state plus the
log of every `sendDiagnostics` message sent to the host sink, in order. -/
structure ServerState where
  validator : VState
  published : List (String × List Diagnostic)
deriving DecidableEq, Repr

/-- From src/shared/extensions/yamlServer.ts lines 125-128 (`documents.onDidClose`):
on close, call `validator.cleanPendingValidation(event.document)` and then send
`{ uri: event.document.uri, diagnostics: [] }` to the connection.  The matching
client-side handler in src/shared/extensions/yaml.ts lines 112-115 does the same
against its diagnostic collection. -/
def onDidClose (doc : Snap) (s : ServerState) : ServerState :=
  { validator := cleanPendingValidation doc.uri s.validator,
    published := s.published ++ [(doc.uri, ([] : List Diagnostic))] }

/-- The `aws.yaml` block of the settings object sent to the server.  Each field
is optional, like `schemas?: []` and `customTags?: string[]` in the source;
the schema payloads are left opaque. -/
structure AwsYamlSettings where
  schemas : Option (List String)
  customTags : Option (List String)
deriving DecidableEq, Repr

/-- The `aws` block of the settings object (`aws?: { yaml?: ... }`). -/
structure AwsSettings where
  yaml : Option AwsYamlSettings
deriving DecidableEq, Repr

/-- A configuration-change settings payload (`Settings` of yamlServer.ts). -/
structure Settings where
  aws : Option AwsSettings
deriving DecidableEq, Repr

/-- The record handed to `yamlService.configure`. -/
structure LanguageSettings where
  completion : Bool
  validate : Bool
  hover : Bool
  customTags : Option (List String)
  schemas : List String
deriving DecidableEq, Repr

/-- The optional chain `settings.aws?.yaml?.customTags`: `none` when any link
is absent. -/
def settingsCustomTags (s : Settings) : Option (List String) :=
  (s.aws.bind fun a => a.yaml).bind fun y => y.customTags

/-- The optional chain `settings.aws?.yaml?.schemas`. -/
def settingsSchemas (s : Settings) : Option (List String) :=
  (s.aws.bind fun a => a.yaml).bind fun y => y.schemas

/-- From src/shared/extensions/yamlServer.ts lines 98-111
(`connection.onDidChangeConfiguration`): the configuration record handed to
`yamlService.configure`.  In JavaScript an array value (even `[]`) is truthy and
`undefined` is falsy, so `!x ? x : []` maps an absent chain to `undefined` and
any present array to `[]`, while `!y ? [] : y` maps an absent chain to `[]` and
keeps a present array. -/
def onDidChangeConfiguration (s : Settings) : LanguageSettings :=
  let customTags : Option (List String) :=
    match settingsCustomTags s with
    | none => none
    | some _ => some []
  let schemas : List String :=
    match settingsSchemas s with
    | none => []
    | some l => l
  { completion := true, validate := true, hover := true,
    customTags := customTags, schemas := schemas }

/-- A schema location.  `vscode.Uri` is modelled by its string rendering, which
is all `assignSchema`/`getSchema`/`removeSchema` observe of it. -/
abbrev Uri := String

/-- The `schema` argument of `assignSchema`: `vscode.Uri | (() => vscode.Uri)`. -/
inductive SchemaInput where
  | uri (u : Uri)
  | thunk (f : Unit → Uri)

/-- From src/shared/extensions/yaml.ts lines 44-46: call the schema if it is a
function, otherwise use it as is. -/
def evaluate : SchemaInput → Uri
  | .uri u => u
  | .thunk f => f ()

/-- The `schemaMap: Map<string, vscode.Uri>` of `activateYamlExtension`,
modelled observationally: `get` returns the first (most recent) binding. -/
abbrev SchemaMap := List (String × Uri)

/-- `Map.get`: the value of the most recent surviving `set` for this key. -/
def mapGet (k : String) (m : SchemaMap) : Option Uri :=
  (m.find? fun e => e.1 == k).map fun e => e.2

/-- `Map.set`: bind `k` to `v`, shadowing any earlier binding. -/
def mapSet (k : String) (v : Uri) (m : SchemaMap) : SchemaMap := (k, v) :: m

/-- `Map.delete`: drop every binding of `k`. -/
def mapDelete (k : String) (m : SchemaMap) : SchemaMap :=
  m.filter fun e => !(e.1 == k)

/-- From src/shared/extensions/yaml.ts lines 204-209 (non-Cloud9 branch of
`activateYamlExtension`): `schemaMap.set(path.toString(), evaluate(schema))`.
The `onSettingsChanged` notification to the language client does not touch the
map and is omitted. -/
def assignSchema (p : String) (schema : SchemaInput) (m : SchemaMap) : SchemaMap :=
  mapSet p (evaluate schema) m

/-- From src/shared/extensions/yaml.ts lines 210-214 (non-Cloud9 branch):
`schemaMap.delete(path.toString())`. -/
def removeSchema (p : String) (m : SchemaMap) : SchemaMap := mapDelete p m

/-- From src/shared/extensions/yaml.ts line 215 (non-Cloud9 branch):
`getSchema: path => schemaMap.get(path.toString())`.  Returned together with
the map afterwards, to state that lookup leaves the map untouched. -/
def getSchema (p : String) (m : SchemaMap) : SchemaMap × Option Uri :=
  (m, mapGet p m)

/-! ## Helper lemmas -/

theorem filter_doc_eq_of_removed (u : String) (l : List Entry) :
    ((l.filter fun x => x.doc != u).filter fun x => x.doc == u) = [] := by
  rw [List.filter_filter]
  apply List.filter_eq_nil.mpr
  intro a _
  by_cases h : a.doc = u <;> simp [h]

theorem filter_doc_after_trigger (u : String) (l : List Entry) (e : Entry) (he : e.doc = u) :
    (((l.filter fun x => x.doc != u) ++ [e]).filter fun x => x.doc == u) = [e] := by
  rw [List.filter_append, filter_doc_eq_of_removed]
  simp [he]

theorem mapGet_mapDelete (k : String) (m : SchemaMap) : mapGet k (mapDelete k m) = none := by
  unfold mapGet mapDelete
  induction m with
  | nil => rfl
  | cons e rest ih =>
    by_cases h : e.1 == k
    · simpa [List.filter_cons, h] using ih
    · simpa [List.filter_cons, h, List.find?_cons] using ih

theorem length_filter_filter_le (p q : Entry → Bool) (l : List Entry) :
    ((l.filter p).filter q).length ≤ (l.filter q).length :=
  ((l.filter_sublist).filter q).length_le

theorem countFor_trigger_self (doc : Snap) (delay now : Nat) (s : VState) :
    countFor doc.uri (triggerValidation doc delay now s) = 1 := by
  unfold countFor triggerValidation cleanPendingValidation
  rw [filter_doc_after_trigger doc.uri s.pending ⟨doc.uri, doc, now + delay⟩ rfl]
  rfl

theorem countFor_trigger_other (doc : Snap) (delay now : Nat) (s : VState) (d : String)
    (hd : d ≠ doc.uri) :
    countFor d (triggerValidation doc delay now s) ≤ countFor d s := by
  unfold countFor triggerValidation cleanPendingValidation
  rw [List.filter_append]
  have h1 : (([⟨doc.uri, doc, now + delay⟩] : List Entry).filter fun e => e.doc == d) = [] := by
    simp [Ne.symm hd]
  rw [h1, List.append_nil]
  exact length_filter_filter_le _ _ s.pending

theorem pendOK_of_filter (p : Entry → Bool) (s : VState) (h : pendOK s) :
    pendOK { s with pending := s.pending.filter p } := by
  intro d
  exact le_trans (length_filter_filter_le p _ s.pending) (h d)

/-! ## Claim theorems -/

/-- **C1**: at most one pending (unfired) scheduled validation per identity; a
trigger for an identity that already has a pending entry cancels the old timer
before installing the new one (afterwards exactly the fresh entry is pending
for it), and the at-most-one invariant is preserved by every
`triggerValidation`, `cleanPendingValidation`, and timer-fire step. -/
theorem pending_at_most_one_preserved (cb : Callback) (s : VState) (h : pendOK s) :
    (∀ (doc : Snap) (delayMillis now : Nat),
        pendOK (triggerValidation doc delayMillis now s) ∧
        ((triggerValidation doc delayMillis now s).pending.filter
            fun e => e.doc == doc.uri) = [⟨doc.uri, doc, now + delayMillis⟩]) ∧
    (∀ d, pendOK (cleanPendingValidation d s)) ∧
    (∀ t, pendOK (fireDue cb t s)) := by
  refine ⟨?_, ?_, ?_⟩
  · intro doc delay now
    constructor
    · intro d
      by_cases hd : d = doc.uri
      · subst hd
        rw [countFor_trigger_self]
      · exact le_trans (countFor_trigger_other doc delay now s d hd) (h d)
    · unfold triggerValidation cleanPendingValidation
      exact filter_doc_after_trigger doc.uri s.pending ⟨doc.uri, doc, now + delay⟩ rfl
  · intro d
    exact pendOK_of_filter _ s h
  · intro t
    exact pendOK_of_filter _ s h

/-- Witness for C1: triggering again for an identity that already has a pending
entry leaves exactly one (the fresh) entry pending for it. -/
theorem pending_at_most_one_preserved_witness :
    pendOK (triggerValidation ⟨"file:a", "v"⟩ 200 100
        ⟨[⟨"file:a", ⟨"file:a", "u"⟩, 50⟩], []⟩) ∧
    ((triggerValidation ⟨"file:a", "v"⟩ 200 100
        ⟨[⟨"file:a", ⟨"file:a", "u"⟩, 50⟩], []⟩).pending.filter
        fun e => e.doc == (Snap.mk "file:a" "v").uri)
      = [⟨"file:a", ⟨"file:a", "v"⟩, 300⟩] :=
  (pending_at_most_one_preserved (fun _ => none)
      ⟨[⟨"file:a", ⟨"file:a", "u"⟩, 50⟩], []⟩
      (fun d => le_trans (List.length_filter_le _ _) (by simp))).1
    ⟨"file:a", "v"⟩ 200 100

theorem run_cons (cb : Callback) (te : Nat × Event) (rest : List (Nat × Event)) (s : VState) :
    run cb (te :: rest) s = run cb rest (step cb s te) := rfl

theorem run_triggers_within (cb : Callback) (d : String) :
    ∀ (calls : List (Nat × String)) (t : Nat) (c : String),
      List.Chain (fun a b => a.1 ≤ b.1 ∧ b.1 ≤ a.1 + 200) (t, c) calls →
      run cb (triggerEvents d 200 calls) ⟨[⟨d, ⟨d, c⟩, t + 200⟩], []⟩
        = ⟨[⟨d, ⟨d, (calls.getLastD (t, c)).2⟩, (calls.getLastD (t, c)).1 + 200⟩], []⟩ := by
  intro calls
  induction calls with
  | nil => intro t c _; rfl
  | cons p rest ih =>
    obtain ⟨t2, c2⟩ := p
    intro t c hchain
    obtain ⟨⟨h1, h2⟩, hchain2⟩ := List.chain_cons.mp hchain
    have hnot : ¬ (t + 200 < t2) := by omega
    have hstep : step cb ⟨[⟨d, ⟨d, c⟩, t + 200⟩], []⟩ (t2, Event.trigger ⟨d, c2⟩ 200)
        = ⟨[⟨d, ⟨d, c2⟩, t2 + 200⟩], []⟩ := by
      simp [step, triggerValidation, cleanPendingValidation, fireDue, decide_eq_false hnot]
    simp only [triggerEvents, List.map_cons]
    rw [run_cons, hstep]
    rw [show List.map (fun c => (c.1, Event.trigger ⟨d, c.2⟩ 200)) rest
        = triggerEvents d 200 rest from rfl]
    rw [ih t2 c2 hchain2, List.getLastD_cons]

/-- **C2**: N ≥ 1 same-identity triggers with delay 200, each within 200ms of
the previous one, produce exactly one ValidationCallback invocation once the
stream goes quiet, and it receives the snapshot passed to the last call, fired
at the last call time plus the delay. -/
theorem debounced_triggers_fire_once_last_snapshot (cb : Callback) (d : String)
    (t0 : Nat) (c0 : String) (rest : List (Nat × String))
    (hchain : List.Chain (fun a b => a.1 ≤ b.1 ∧ b.1 ≤ a.1 + 200) (t0, c0) rest) :
    flush cb (run cb (triggerEvents d 200 ((t0, c0) :: rest)) ⟨[], []⟩)
      = ⟨[], [⟨d, ⟨d, (rest.getLastD (t0, c0)).2⟩, (rest.getLastD (t0, c0)).1 + 200,
              cb ⟨d, (rest.getLastD (t0, c0)).2⟩⟩]⟩ := by
  have h0 : step cb ⟨[], []⟩ (t0, Event.trigger ⟨d, c0⟩ 200)
      = ⟨[⟨d, ⟨d, c0⟩, t0 + 200⟩], []⟩ := by
    simp [step, triggerValidation, cleanPendingValidation, fireDue]
  simp only [triggerEvents, List.map_cons]
  rw [run_cons, h0]
  rw [show List.map (fun c => (c.1, Event.trigger ⟨d, c.2⟩ 200)) rest
      = triggerEvents d 200 rest from rfl]
  rw [run_triggers_within cb d rest t0 c0 hchain]
  rfl

/-- Witness for C2: the spec scenario — trigger at t=0 with snapshot A, again
at t=100 with snapshot B — yields exactly one invocation, at t=300, with B. -/
theorem debounced_triggers_fire_once_last_snapshot_witness :
    flush (fun _ => none)
        (run (fun _ => none) (triggerEvents "file:a" 200 [(0, "A"), (100, "B")]) ⟨[], []⟩)
      = ⟨[], [⟨"file:a", ⟨"file:a", "B"⟩, 300, none⟩]⟩ :=
  debounced_triggers_fire_once_last_snapshot (fun _ => none) "file:a" 0 "A" [(100, "B")]
    (List.Chain.cons ⟨by decide, by decide⟩ List.Chain.nil)

theorem step_frame_no_trigger (cb : Callback) (d : String) (s : VState) (te : Nat × Event)
    (hp : noPendingFor d s)
    (hte : ∀ doc delay, te.2 = Event.trigger doc delay → doc.uri ≠ d) :
    noPendingFor d (step cb s te) ∧
    ((step cb s te).log.filter fun r => r.doc == d) = s.log.filter fun r => r.doc == d := by
  obtain ⟨t, ev⟩ := te
  have hfire_pend : noPendingFor d (fireDue cb t s) := by
    intro e he
    exact hp e (List.mem_of_mem_filter he)
  have hfire_log : ((fireDue cb t s).log.filter fun r => r.doc == d)
      = s.log.filter fun r => r.doc == d := by
    unfold fireDue
    rw [List.filter_append]
    have hnil : (((s.pending.filter fun e => decide (e.deadline < t)).map
        fun e => (⟨e.doc, e.snap, e.deadline, cb e.snap⟩ : FireRecord)).filter
        fun r => r.doc == d) = [] := by
      apply List.filter_eq_nil_iff.mpr
      intro r hr
      simp only [List.mem_map] at hr
      obtain ⟨e, he, rfl⟩ := hr
      simp [hp e (List.mem_of_mem_filter he)]
    rw [hnil, List.append_nil]
  cases ev with
  | trigger doc delay =>
    have hne : doc.uri ≠ d := hte doc delay rfl
    constructor
    · intro e he
      have he2 : e ∈ ((fireDue cb t s).pending.filter fun x => x.doc != doc.uri)
          ++ [(⟨doc.uri, doc, t + delay⟩ : Entry)] := he
      rcases List.mem_append.mp he2 with h3 | h3
      · exact hfire_pend e (List.mem_of_mem_filter h3)
      · rw [List.mem_singleton.mp h3]
        exact hne
    · exact hfire_log
  | clean d2 =>
    constructor
    · intro e he
      exact hfire_pend e (List.mem_of_mem_filter he)
    · exact hfire_log

theorem run_frame_no_trigger (cb : Callback) (d : String) :
    ∀ (events : List (Nat × Event)) (s : VState),
      noPendingFor d s → noTriggerFor d events →
      noPendingFor d (run cb events s) ∧
      ((run cb events s).log.filter fun r => r.doc == d)
        = s.log.filter fun r => r.doc == d := by
  intro events
  induction events with
  | nil => intro s hp _; exact ⟨hp, rfl⟩
  | cons te rest ih =>
    intro s hp hnt
    have h1 := step_frame_no_trigger cb d s te hp
      (fun doc delay hd => hnt te (List.mem_cons_self te rest) doc delay hd)
    have h2 := ih (step cb s te) h1.1
      (fun x hx => hnt x (List.mem_cons_of_mem te hx))
    refine ⟨h2.1, ?_⟩
    rw [run_cons, h2.2, h1.2]

theorem flush_frame (cb : Callback) (d : String) (s : VState) (hp : noPendingFor d s) :
    ((flush cb s).log.filter fun r => r.doc == d) = s.log.filter fun r => r.doc == d := by
  unfold flush
  rw [List.filter_append]
  have hnil : ((s.pending.map fun e =>
      (⟨e.doc, e.snap, e.deadline, cb e.snap⟩ : FireRecord)).filter
      fun r => r.doc == d) = [] := by
    apply List.filter_eq_nil_iff.mpr
    intro r hr
    simp only [List.mem_map] at hr
    obtain ⟨e, he, rfl⟩ := hr
    simp [hp e he]
  rw [hnil, List.append_nil]

/-- **C3**: `cleanPendingValidation(D)` issued after `triggerValidation(D, delay)`
and before the delay elapses means the ValidationCallback never runs for `D`:
however the run continues (any further events, as long as none is a trigger for
`D`, and even after all remaining timers fire), the invocation log holds no
entry for `D`. -/
theorem clean_before_deadline_no_invocation (cb : Callback) (doc : Snap)
    (delay t0 t1 : Nat) (hbefore : t1 < t0 + delay)
    (later : List (Nat × Event)) (hlater : noTriggerFor doc.uri later) :
    ((flush cb (run cb later
        (step cb (step cb ⟨[], []⟩ (t0, Event.trigger doc delay))
          (t1, Event.clean doc.uri)))).log.filter
        fun r => r.doc == doc.uri) = [] := by
  have hnot : ¬ (t0 + delay < t1) := by omega
  have hstate : step cb (step cb ⟨[], []⟩ (t0, Event.trigger doc delay))
      (t1, Event.clean doc.uri) = ⟨[], []⟩ := by
    simp [step, triggerValidation, cleanPendingValidation, fireDue, decide_eq_false hnot]
  rw [hstate]
  have hempty : noPendingFor doc.uri (⟨[], []⟩ : VState) := by
    intro e he
    exact absurd he (List.not_mem_nil e)
  have hrun := run_frame_no_trigger cb doc.uri later ⟨[], []⟩ hempty hlater
  rw [flush_frame cb doc.uri _ hrun.1, hrun.2]
  rfl

/-- Witness for C3: trigger at t=0 with delay 200, clean at t=50, then an
unrelated close event for another document at t=400 — the log stays free of
invocations for the cleaned identity. -/
theorem clean_before_deadline_no_invocation_witness :
    ((flush (fun _ => none) (run (fun _ => none) [(400, Event.clean "file:b")]
        (step (fun _ => none)
          (step (fun _ => none) ⟨[], []⟩ (0, Event.trigger ⟨"file:a", "x"⟩ 200))
          (50, Event.clean "file:a")))).log.filter
        fun r => r.doc == (Snap.mk "file:a" "x").uri) = [] :=
  clean_before_deadline_no_invocation (fun _ => none) ⟨"file:a", "x"⟩ 200 0 50
    (by decide) [(400, Event.clean "file:b")]
    (by
      intro te hte doc2 delay2 h
      rw [List.mem_singleton.mp hte] at h
      simp at h)

/-- **C5**: calling `cleanPendingValidation(D)` when no pending entry exists for
`D` is a no-op: it never throws (the operation is a total function) and returns
the state — in particular the pending-validation map — unchanged, so a second
call in a row is equally a no-op. -/
theorem clean_without_pending_is_noop (d : String) (s : VState)
    (h : noPendingFor d s) :
    cleanPendingValidation d s = s ∧
    cleanPendingValidation d (cleanPendingValidation d s) = cleanPendingValidation d s := by
  have hp : s.pending.filter (fun e => e.doc != d) = s.pending := by
    apply List.filter_eq_self.mpr
    intro e he
    simpa using h e he
  have h1 : cleanPendingValidation d s = s := by
    simp [cleanPendingValidation, hp]
  exact ⟨h1, by rw [h1, h1]⟩

/-- Witness for C5 at a concrete state holding a pending entry for a different
identity. -/
theorem clean_without_pending_is_noop_witness :
    cleanPendingValidation "file:a" ⟨[⟨"file:b", ⟨"file:b", "x"⟩, 5⟩], []⟩
        = ⟨[⟨"file:b", ⟨"file:b", "x"⟩, 5⟩], []⟩ ∧
    cleanPendingValidation "file:a"
        (cleanPendingValidation "file:a" ⟨[⟨"file:b", ⟨"file:b", "x"⟩, 5⟩], []⟩)
        = cleanPendingValidation "file:a" ⟨[⟨"file:b", ⟨"file:b", "x"⟩, 5⟩], []⟩ :=
  clean_without_pending_is_noop "file:a" ⟨[⟨"file:b", ⟨"file:b", "x"⟩, 5⟩], []⟩
    (by intro e he; simp only [List.mem_singleton] at he; subst he; decide)

/-- **C7**: `triggerValidation` with `delayMillis = 0` never invokes the
ValidationCallback synchronously within the triggering step: the invocation log
is untouched and a deferred entry (due at the current instant) is installed
instead, so a closely-following trigger at the same instant still coalesces
with it, replacing the stored snapshot. -/
theorem zero_delay_schedules_deferred (doc : Snap) (now : Nat) (s : VState) :
    (triggerValidation doc 0 now s).log = s.log ∧
    ((triggerValidation doc 0 now s).pending.filter fun e => e.doc == doc.uri)
      = [⟨doc.uri, doc, now⟩] ∧
    ∀ doc2 : Snap, doc2.uri = doc.uri →
      ((triggerValidation doc2 0 now (triggerValidation doc 0 now s)).pending.filter
          fun e => e.doc == doc.uri) = [⟨doc.uri, doc2, now⟩] := by
  refine ⟨rfl, ?_, ?_⟩
  · simpa [triggerValidation, cleanPendingValidation] using
      filter_doc_after_trigger doc.uri s.pending ⟨doc.uri, doc, now + 0⟩ rfl
  · intro doc2 h2
    have := filter_doc_after_trigger doc.uri
      ((triggerValidation doc 0 now s).pending.filter fun x => x.doc != doc.uri)
      ⟨doc.uri, doc2, now⟩ rfl
    simp only [triggerValidation, cleanPendingValidation, h2] at *
    simpa [List.filter_filter] using this

/-- Witness for C7: two zero-delay triggers at the same instant leave exactly
one deferred entry carrying the second snapshot. -/
theorem zero_delay_schedules_deferred_witness :
    ((triggerValidation ⟨"file:a", "v2"⟩ 0 7
        (triggerValidation ⟨"file:a", "v1"⟩ 0 7 ⟨[], []⟩)).pending.filter
        fun e => e.doc == (Snap.mk "file:a" "v1").uri)
      = [⟨"file:a", ⟨"file:a", "v2"⟩, 7⟩] :=
  (zero_delay_schedules_deferred ⟨"file:a", "v1"⟩ 7 ⟨[], []⟩).2.2 ⟨"file:a", "v2"⟩ rfl

/-- **C9**: the customTags value handed to `yamlService.configure` by the
configuration-change handler is never a non-empty list: a present (truthy)
`settings.aws.yaml.customTags` is replaced by `[]`, and only an absent chain is
passed through as `undefined`, so user-supplied custom tags are always
discarded. -/
theorem configure_discards_custom_tags (s : Settings) :
    (∀ l, (onDidChangeConfiguration s).customTags = some l → l = []) ∧
    (settingsCustomTags s = none → (onDidChangeConfiguration s).customTags = none) ∧
    (∀ l0, settingsCustomTags s = some l0 →
      (onDidChangeConfiguration s).customTags = some []) := by
  refine ⟨?_, ?_, ?_⟩
  · intro l hl
    cases h : settingsCustomTags s <;> simp [onDidChangeConfiguration, h] at hl <;> simp [hl]
  · intro h
    simp [onDidChangeConfiguration, h]
  · intro l0 h
    simp [onDidChangeConfiguration, h]

/-- Witness for C9: a user-supplied tag list `["!Ref"]` reaches the service as
`[]`. -/
theorem configure_discards_custom_tags_witness :
    (onDidChangeConfiguration ⟨some ⟨some ⟨none, some ["!Ref"]⟩⟩⟩).customTags = some [] :=
  (configure_discards_custom_tags ⟨some ⟨some ⟨none, some ["!Ref"]⟩⟩⟩).2.2 ["!Ref"] rfl

/-- **C10**: for the non-Cloud9 `YamlExtension`, `getSchema p` right after
`assignSchema p s` returns `evaluate s`; right after `removeSchema p` it
returns `undefined`; and `getSchema` never mutates the schema map. -/
theorem get_assign_remove_schema_spec (p : String) (schema : SchemaInput) (m : SchemaMap) :
    (getSchema p (assignSchema p schema m)).2 = some (evaluate schema) ∧
    (getSchema p (removeSchema p m)).2 = none ∧
    (getSchema p m).1 = m := by
  refine ⟨?_, ?_, rfl⟩
  · simp [getSchema, assignSchema, mapSet, mapGet, List.find?]
  · exact mapGet_mapDelete p m

/-- **C4**: when a due timer fires and the ValidationCallback throws/rejects,
the error is propagated to the invoking context (recorded, not retried, not
suppressed, in the fire record), yet the pending entry is still removed, so a
subsequent `triggerValidation` for the same identity schedules freshly. -/
theorem callback_error_propagates_entry_removed (cb : Callback) (e : Entry)
    (lg : List FireRecord) (t : Nat) (msg : String)
    (hdue : e.deadline < t) (herr : cb e.snap = some msg) :
    (fireDue cb t ⟨[e], lg⟩).pending = [] ∧
    (fireDue cb t ⟨[e], lg⟩).log = lg ++ [⟨e.doc, e.snap, e.deadline, some msg⟩] ∧
    ∀ (doc : Snap) (delay now : Nat),
      (triggerValidation doc delay now (fireDue cb t ⟨[e], lg⟩)).pending
        = [⟨doc.uri, doc, now + delay⟩] := by
  have hd : decide (e.deadline < t) = true := decide_eq_true hdue
  refine ⟨?_, ?_, ?_⟩
  · simp [fireDue, hd]
  · simp [fireDue, hd, herr]
  · intro doc delay now
    simp [triggerValidation, cleanPendingValidation, fireDue, hd]

/-- Witness for C4: a callback failing with "boom" at the fire still frees the
identity, and a later trigger installs a fresh entry. -/
theorem callback_error_propagates_entry_removed_witness :
    (fireDue (fun _ => some "boom") 201
        ⟨[⟨"file:a", ⟨"file:a", "x"⟩, 200⟩], []⟩).pending = [] ∧
    (fireDue (fun _ => some "boom") 201
        ⟨[⟨"file:a", ⟨"file:a", "x"⟩, 200⟩], []⟩).log
      = [⟨"file:a", ⟨"file:a", "x"⟩, 200, some "boom"⟩] ∧
    (triggerValidation ⟨"file:a", "y"⟩ 200 300
        (fireDue (fun _ => some "boom") 201
          ⟨[⟨"file:a", ⟨"file:a", "x"⟩, 200⟩], []⟩)).pending
      = [⟨"file:a", ⟨"file:a", "y"⟩, 500⟩] := by
  have h := callback_error_propagates_entry_removed (fun _ => some "boom")
    ⟨"file:a", ⟨"file:a", "x"⟩, 200⟩ [] 201 "boom" (by decide) rfl
  exact ⟨h.1, h.2.1, h.2.2 ⟨"file:a", "y"⟩ 200 300⟩

theorem filter_doc_other (d1 d2 : String) (hne : d1 ≠ d2) (l : List Entry) :
    ((l.filter fun e => e.doc != d1).filter fun e => e.doc == d2)
      = l.filter fun e => e.doc == d2 := by
  rw [List.filter_filter]
  apply List.filter_congr
  intro a _
  by_cases h : a.doc = d2
  · simp [h, Ne.symm hne]
  · simp [h]

/-- **C6**: operations on one identity leave every other identity's pending
entry unchanged, and two triggers for distinct identities (in either timing
relation) produce two independent invocations, each with its own snapshot. -/
theorem distinct_identities_independent (cb : Callback) (d1 d2 cA cB : String)
    (t0 t1 : Nat) (s : VState) (hne : d1 ≠ d2) (hord : t0 ≤ t1) :
    (∀ (doc : Snap) (delay now : Nat), doc.uri = d1 →
        ((triggerValidation doc delay now s).pending.filter fun e => e.doc == d2)
          = s.pending.filter fun e => e.doc == d2) ∧
    (((cleanPendingValidation d1 s).pending.filter fun e => e.doc == d2)
        = s.pending.filter fun e => e.doc == d2) ∧
    (flush cb (run cb [(t0, Event.trigger ⟨d1, cA⟩ 200),
        (t1, Event.trigger ⟨d2, cB⟩ 200)] ⟨[], []⟩)).log
      = [⟨d1, ⟨d1, cA⟩, t0 + 200, cb ⟨d1, cA⟩⟩,
         ⟨d2, ⟨d2, cB⟩, t1 + 200, cb ⟨d2, cB⟩⟩] := by
  refine ⟨?_, ?_, ?_⟩
  · intro doc delay now hu
    unfold triggerValidation cleanPendingValidation
    rw [List.filter_append, hu, filter_doc_other d1 d2 hne s.pending]
    have h1 : (([⟨d1, doc, now + delay⟩] : List Entry).filter
        fun e => e.doc == d2) = [] := by
      simp [hne]
    rw [h1, List.append_nil]
  · exact filter_doc_other d1 d2 hne s.pending
  · by_cases hc : t0 + 200 < t1
    · simp [run, step, triggerValidation, cleanPendingValidation, fireDue, flush,
        decide_eq_true hc, hne]
    · simp [run, step, triggerValidation, cleanPendingValidation, fireDue, flush,
        decide_eq_false hc, hne]

/-- Witness for C6: triggers at t=0 for one document and t=100 for another give
one invocation each, with their own snapshots. -/
theorem distinct_identities_independent_witness :
    (flush (fun _ => none) (run (fun _ => none)
        [(0, Event.trigger ⟨"file:a", "A"⟩ 200),
         (100, Event.trigger ⟨"file:b", "B"⟩ 200)] ⟨[], []⟩)).log
      = [⟨"file:a", ⟨"file:a", "A"⟩, 200, none⟩,
         ⟨"file:b", ⟨"file:b", "B"⟩, 300, none⟩] :=
  (distinct_identities_independent (fun _ => none) "file:a" "file:b" "A" "B" 0 100
    ⟨[], []⟩ (by decide) (by decide)).2.2

/-- **C8**: the document-close handler cancels any pending validation for the
closed document and then publishes an empty diagnostics list for its URI: the
last sink message for that URI is empty, and no validation fires for it in any
later trigger-free run. -/
theorem close_clears_pending_publishes_empty (cb : Callback) (doc : Snap)
    (s : ServerState) (later : List (Nat × Event)) (hlater : noTriggerFor doc.uri later) :
    noPendingFor doc.uri (onDidClose doc s).validator ∧
    (((onDidClose doc s).published.filter fun p => p.1 == doc.uri).getLast?
        = some (doc.uri, [])) ∧
    ((flush cb (run cb later (onDidClose doc s).validator)).log.filter
        fun r => r.doc == doc.uri)
      = s.validator.log.filter fun r => r.doc == doc.uri := by
  have hp : noPendingFor doc.uri (onDidClose doc s).validator := by
    intro e he
    have he2 : e ∈ s.validator.pending.filter (fun x => x.doc != doc.uri) := he
    have := (List.mem_filter.mp he2).2
    simpa using this
  refine ⟨hp, ?_, ?_⟩
  · show ((s.published ++ [(doc.uri, ([] : List Diagnostic))]).filter
        fun p => p.1 == doc.uri).getLast? = some (doc.uri, [])
    rw [List.filter_append]
    have h1 : (([(doc.uri, ([] : List Diagnostic))]).filter
        fun p => p.1 == doc.uri) = [(doc.uri, [])] := by simp
    rw [h1, List.getLast?_concat]
  · have h1 := run_frame_no_trigger cb doc.uri later ((onDidClose doc s).validator) hp hlater
    rw [flush_frame cb doc.uri _ h1.1, h1.2]
    rfl

/-- Witness for C8: closing a document with a pending validation and a
previously published diagnostic leaves an empty list as its last published
diagnostics and an invocation log free of entries for it. -/
theorem close_clears_pending_publishes_empty_witness :
    (((onDidClose ⟨"file:a", "x"⟩
        ⟨⟨[⟨"file:a", ⟨"file:a", "x"⟩, 200⟩], []⟩,
          [("file:a", ["err"])]⟩).published.filter
        fun p => p.1 == (Snap.mk "file:a" "x").uri).getLast?
      = some ("file:a", [])) ∧
    ((flush (fun _ => none) (run (fun _ => none) []
        (onDidClose ⟨"file:a", "x"⟩
          ⟨⟨[⟨"file:a", ⟨"file:a", "x"⟩, 200⟩], []⟩,
            [("file:a", ["err"])]⟩).validator)).log.filter
        fun r => r.doc == (Snap.mk "file:a" "x").uri) = [] := by
  have h := close_clears_pending_publishes_empty (fun _ => none) ⟨"file:a", "x"⟩
    ⟨⟨[⟨"file:a", ⟨"file:a", "x"⟩, 200⟩], []⟩, [("file:a", ["err"])]⟩ []
    (by intro te hte; exact absurd hte (List.not_mem_nil te))
  exact ⟨h.2.1, h.2.2⟩

end AwsToolkit
